import Mathlib

/-!
Verification of the SIliceCodeBaseMapper index/graph layer.

Shallow embedding of the three Python modules:
  * `silice_file_mapper.py` — per-file document naming (`safe_name`), the
    master-index upsert performed by `process_single_file`, and the
    index-loading policy of `main`;
  * `silice_query.py` — `SiliceGraph`: eager map loading, `find_dependents`,
    `show_summary`;
  * `silice_bridge.py` — `SiliceBridge.retrieve_context` keyword retrieval.

File-system reads are modelled as a function `String → Option α`
(`none` = the file does not exist / is unreadable); the AI collaborator and
the static extractor are modelled by an outcome parameter, as the spec treats
them as opaque collaborators.
-/

namespace Silice

/-! ## String helpers (Python `in`, `lower`, `split`) -/

/-- Boolean list-prefix test on characters. -/
def isPrefixChars : List Char → List Char → Bool
  | [], _ => true
  | _ :: _, [] => false
  | a :: as, b :: bs => a == b && isPrefixChars as bs

/-- Boolean contiguous-segment test: does `needle` occur inside `hay`? -/
def segIn (needle : List Char) : List Char → Bool
  | [] => isPrefixChars needle []
  | c :: t => isPrefixChars needle (c :: t) || segIn needle t

/-- Python's `needle in hay` substring test. -/
def strContains (hay needle : String) : Bool :=
  segIn needle.toList hay.toList

/-- Python's `s.lower()`, character-wise (ASCII range, as both sides use it
on ASCII identifiers and prose). -/
def pyLower (s : String) : String :=
  String.mk (s.toList.map Char.toLower)

/-- Worker for Python's `s.split()`: scan the characters, accumulating the
current word reversed; a whitespace character closes the current word (if
any), so runs of whitespace produce no empty words. -/
def splitWordsAux : List Char → List Char → List String
  | [], acc => if acc.isEmpty then [] else [String.mk acc.reverse]
  | c :: cs, acc =>
    if c.isWhitespace then
      if acc.isEmpty then splitWordsAux cs []
      else String.mk acc.reverse :: splitWordsAux cs []
    else splitWordsAux cs (c :: acc)

/-- Python's `s.split()`: whitespace-delimited words, empty pieces dropped. -/
def pyWords (s : String) : List String :=
  splitWordsAux s.toList []

/-! ## Data model (Silice Protocol v3, from `silice_file_mapper.py`;
the query tools read these records back from JSON with per-field defaults,
so the fields read via `dict.get` are carried as written). -/

structure Dependency where
  source : String
  target : String
  type : String
deriving DecidableEq

structure FunctionMap where
  name : String
  signature : String
  docstring : Option String
  calls : List String
  logic_summary : String
deriving DecidableEq

structure FileNode where
  file_name : Option String
  file_path : Option String
  functions : List FunctionMap
  classes : List String
  dependencies : List Dependency
  summary : Option String
deriving DecidableEq

/-- One entry of `master_index["graph_nodes"]`. -/
structure IndexEntry where
  file : String
  map_ref : String
  summary : String
deriving DecidableEq

/-- The master index document (`index.json`). -/
structure MasterIndex where
  project_root : String
  graph_nodes : List IndexEntry
deriving DecidableEq

/-! ## Per-file map store naming (`process_single_file`, lines 112–113):
`safe_name = str(file_path).replace(os.sep, "_") + ".json"`, `os.sep = '/'`. -/

/-- Replace a path separator by the delimiter, as `str.replace(os.sep, "_")`
does character-wise. -/
def sepToDelim (c : Char) : Char :=
  if c == '/' then '_' else c

/-- `safe_name`: flatten the path and append the fixed extension. -/
def safe_name (p : String) : String :=
  String.mk (p.toList.map sepToDelim) ++ ".json"

/-! ## Index loading in `main` (`silice_file_mapper.py`, lines 144–154):
if `index.json` exists but fails to decode, start from a fresh index. -/

/-- Outcome of loading `index.json` in `main`: `indexExists` tells whether the
file is present, `parsed` is the JSON decode result (`none` = decode error). -/
def load_master_index (cwd : String) (indexExists : Bool)
    (parsed : Option MasterIndex) : MasterIndex :=
  if indexExists then
    match parsed with
    | some idx => idx
    | none => { project_root := cwd, graph_nodes := [] }
  else { project_root := cwd, graph_nodes := [] }

/-! ## Graph loading (`SiliceGraph._load_all_maps`, `silice_query.py` 17–23).
`self.nodes` is a Python dict (insertion-ordered); we model it as an
association list and dict assignment as update-first-or-append. -/

/-- Python dict assignment `d[k] = v` on an insertion-ordered association
list: overwrite the first binding of `k` in place, else append. -/
def dictInsert : List (String × FileNode) → String → FileNode → List (String × FileNode)
  | [], k, v => [(k, v)]
  | (k0, v0) :: rest, k, v =>
    if k0 == k then (k, v) :: rest else (k0, v0) :: dictInsert rest k v

/-- `_load_all_maps`: for every index entry whose referenced document exists,
load it under the entry's `file` key; missing documents are skipped. -/
def load_all_maps (fsRead : String → Option FileNode)
    (entries : List IndexEntry) : List (String × FileNode) :=
  entries.foldl (fun nodes e =>
    match fsRead e.map_ref with
    | some node => dictInsert nodes e.file node
    | none => nodes) []

/-! ## Query engine (`SiliceGraph.find_dependents`, `silice_query.py` 25–45,
and `SiliceGraph.show_summary`, 47–53). -/

/-- The `(file, reason)` pairs one loaded file contributes to the impact
list: dependency matches first, then function-call matches, in stored
order, exactly as the two inner loops append them. -/
def impacted_of (target_name : String) (fd : String × FileNode) :
    List (String × String) :=
  fd.2.dependencies.filterMap (fun dep =>
    if strContains dep.target target_name then some (fd.1, dep.type) else none)
  ++ fd.2.functions.filterMap (fun fn =>
    if fn.calls.any (fun c => strContains c target_name) then
      some (fd.1, "function call in " ++ fn.name)
    else none)

/-- `find_dependents`: collect the impact pairs over all loaded files and
report them as a set (`set(impacted)`), modelled as first-occurrence
de-duplication. -/
def find_dependents (nodes : List (String × FileNode))
    (target_name : String) : List (String × String) :=
  (nodes.flatMap (impacted_of target_name)).dedup

/-- `show_summary`: for every loaded file whose path contains `file_query`,
print its summary (`data.get` default when absent) and its functions' names
in stored order; the output is the list of printed records. -/
def show_summary (nodes : List (String × FileNode)) (file_query : String) :
    List (String × String × List String) :=
  nodes.filterMap (fun fd =>
    if strContains fd.1 file_query then
      some (fd.1, fd.2.summary.getD "No summary available.",
        fd.2.functions.map (fun f => f.name))
    else none)

/-! ## Retrieval scorer (`SiliceBridge.retrieve_context`,
`silice_bridge.py` 20–45). -/

/-- Stable insertion for a descending-by-key list: keep strictly greater
keys in front, place the new element before the first key that is
less than or equal. -/
def insertDescBy {α : Type} (key : α → Nat) (x : α) : List α → List α
  | [] => [x]
  | y :: ys => if key x < key y then y :: insertDescBy key x ys else x :: y :: ys

/-- Stable descending sort by key: functional model of Python's stable
`list.sort(key=..., reverse=True)` (equal keys keep their original
relative order). -/
def sortDescBy {α : Type} (key : α → Nat) : List α → List α
  | [] => []
  | x :: xs => insertDescBy key x (sortDescBy key xs)

/-- The per-entry overlap score: `sum(1 for word in query_words if word in
summary or word in file_name)`, over the distinct lowercased query words. -/
def py_score (query_words : List String) (node : IndexEntry) : Nat :=
  (query_words.filter (fun word =>
    strContains (pyLower node.summary) word
      || strContains (pyLower node.file) word)).length

/-- `retrieve_context`: score every index entry, keep positive scores with
their `map_ref`, stable-sort descending by score, take `top_k`, read each
referenced document that exists and join with the fixed separator. -/
def retrieve_context (fsRead : String → Option String)
    (graph_nodes : List IndexEntry) (query : String) (top_k : Nat) : String :=
  let query_words := (pyWords (pyLower query)).dedup
  let scores := graph_nodes.filterMap (fun node =>
    if py_score query_words node > 0 then
      some (py_score query_words node, node.map_ref)
    else none)
  let sorted := sortDescBy Prod.fst scores
  let relevant_maps := (sorted.take top_k).map Prod.snd
  let context_data := relevant_maps.filterMap fsRead
  String.intercalate "\n---\n" context_data

/-- The spec's wording of the score: count of distinct query words that
appear as a substring of the lowercased summary or the lowercased file
name, each contributing at most 1. -/
def spec_score (query : String) (node : IndexEntry) : Nat :=
  ((pyWords (pyLower query)).dedup).countP (fun word =>
    strContains (pyLower node.summary) word
      || strContains (pyLower node.file) word)

/-- The spec's wording of the selection: exclude zero scores, sort the rest
by descending score keeping index order on ties, keep the top `top_k`. -/
def spec_selection (query : String) (top_k : Nat)
    (graph_nodes : List IndexEntry) : List IndexEntry :=
  (sortDescBy (spec_score query)
    (graph_nodes.filter (fun n => 0 < spec_score query n))).take top_k

/-- The spec's wording of retrieval: read the selected entries' documents
(dropping unreadable ones) and join them with the fixed separator. -/
def spec_retrieve (fsRead : String → Option String)
    (graph_nodes : List IndexEntry) (query : String) (top_k : Nat) : String :=
  String.intercalate "\n---\n"
    (((spec_selection query top_k graph_nodes).map
        (fun n => n.map_ref)).filterMap fsRead)

/-! ## Master-index upsert (`process_single_file`,
`silice_file_mapper.py` 118–132). -/

/-- The upsert on `graph_nodes`: `next(n for n if n.file == file)` finds the
first entry with the same `file`; `update` overwrites it in place
(`node_data` carries all three keys), otherwise the node is appended. -/
def upsert_node : List IndexEntry → IndexEntry → List IndexEntry
  | [], nd => [nd]
  | e :: es, nd => if e.file == nd.file then nd :: es else e :: upsert_node es nd

/-- Outcome of the pipeline stages before the index update: the static
extractor may fail (syntax error), the AI collaborator may fail (exception
after retries), or analysis succeeds with a summary. -/
inductive AnalyzeOutcome where
  | staticFail
  | aiFail
  | ok (summary : String)
deriving DecidableEq

/-- The index effect of `process_single_file`: failures return early and
leave the index unchanged; success saves the document at
`output_dir / safe_name file_path` and upserts `{file, map_ref, summary}`. -/
def process_single_file (output_dir : String) (file_path : String)
    (outcome : AnalyzeOutcome) (graph_nodes : List IndexEntry) : List IndexEntry :=
  match outcome with
  | .staticFail => graph_nodes
  | .aiFail => graph_nodes
  | .ok summary =>
    upsert_node graph_nodes
      { file := file_path, map_ref := output_dir ++ "/" ++ safe_name file_path,
        summary := summary }

/-- A run of the mapper: a sequence of `process_single_file` calls, one per
(file, outcome) step. -/
def run_mapper (output_dir : String) (steps : List (String × AnalyzeOutcome))
    (graph_nodes : List IndexEntry) : List IndexEntry :=
  steps.foldl (fun idx s => process_single_file output_dir s.1 s.2 idx) graph_nodes

/-- The files of the successfully analyzed steps of a run, in order. -/
def success_files (steps : List (String × AnalyzeOutcome)) : List String :=
  steps.filterMap (fun s => match s.2 with | .ok _ => some s.1 | _ => none)

/-- The in-memory state of a `SiliceGraph` object. -/
structure SiliceGraph where
  index : MasterIndex
  nodes : List (String × FileNode)
deriving DecidableEq

/-- `find_dependents` as a method call: printed output together with the
object state after the call. -/
def find_dependents_run (g : SiliceGraph) (target_name : String) :
    List (String × String) × SiliceGraph :=
  (find_dependents g.nodes target_name, g)

/-- `show_summary` as a method call: printed output together with the
object state after the call. -/
def show_summary_run (g : SiliceGraph) (file_query : String) :
    List (String × String × List String) × SiliceGraph :=
  (show_summary g.nodes file_query, g)

end Silice

namespace Silice

/-! ## General list helpers -/

/-- `filterMap` over a guarded `some` is `filter` then `map`. -/
theorem filterMap_guard {α β : Type} (p : α → Bool) (f : α → β) :
    ∀ l : List α,
      l.filterMap (fun a => if p a then some (f a) else none)
        = (l.filter p).map f := by
  intro l
  induction l with
  | nil => rfl
  | cons a as ih => by_cases h : p a <;> simp [List.filterMap_cons, h, ih]

/-! ## Theorems for claims C3 and C8 -/

/-- Characters other than the delimiter are mapped injectively. -/
theorem sepToDelim_inj {a b : Char} (ha : a ≠ '_') (hb : b ≠ '_')
    (h : sepToDelim a = sepToDelim b) : a = b := by
  unfold sepToDelim at h
  by_cases h1 : a = '/' <;> by_cases h2 : b = '/' <;>
    simp [h1, h2] at h <;> first | exact h1.trans h2.symm | tauto

/-- Lists of characters avoiding the delimiter are mapped injectively. -/
theorem map_sepToDelim_inj : ∀ (l₁ l₂ : List Char), '_' ∉ l₁ → '_' ∉ l₂ →
    l₁.map sepToDelim = l₂.map sepToDelim → l₁ = l₂ := by
  intro l₁
  induction l₁ with
  | nil => intro l₂ _ _ h; cases l₂ <;> simp_all
  | cons a as ih =>
    intro l₂ h1 h2 h
    cases l₂ with
    | nil => simp at h
    | cons b bs =>
      simp only [List.map_cons, List.cons.injEq] at h
      have ha : a ≠ '_' := fun hc => h1 (hc ▸ List.mem_cons_self a as)
      have hb : b ≠ '_' := fun hc => h2 (hc ▸ List.mem_cons_self b bs)
      have := sepToDelim_inj ha hb h.1
      have hrest := ih bs (fun hm => h1 (List.mem_cons_of_mem a hm))
        (fun hm => h2 (List.mem_cons_of_mem b hm)) h.2
      simp [this, hrest]

/-- counterexample for C3: the two distinct paths `a/b.py` and `a_b.py`
derive the same document name, so the naming scheme is not injective on all
paths and one save can overwrite the other's document. -/
theorem safe_name_collision :
    safe_name "a/b.py" = safe_name "a_b.py" ∧ ("a/b.py" : String) ≠ "a_b.py" := by
  constructor
  · rfl
  · decide

/-- C3 (amended): the naming scheme is injective on paths that do not contain
the delimiter character `_`: two distinct such paths always derive distinct
document names, so neither save overwrites the other's document. -/
theorem safe_name_inj_of_no_delim (p₁ p₂ : String)
    (h1 : '_' ∉ p₁.toList) (h2 : '_' ∉ p₂.toList) (hne : p₁ ≠ p₂) :
    safe_name p₁ ≠ safe_name p₂ := by
  intro h
  apply hne
  unfold safe_name at h
  have hdata : (String.mk (p₁.toList.map sepToDelim)).data ++ (".json" : String).data
      = (String.mk (p₂.toList.map sepToDelim)).data ++ (".json" : String).data := by
    have := congrArg String.data h
    simpa [String.data_append] using this
  have hmaps : p₁.toList.map sepToDelim = p₂.toList.map sepToDelim :=
    List.append_cancel_right hdata
  have : p₁.toList = p₂.toList := map_sepToDelim_inj _ _ h1 h2 hmaps
  cases p₁; cases p₂
  simp only [String.toList] at this
  simp [this]

/-- witness for C3's amended theorem at concrete distinct paths. -/
theorem safe_name_inj_witness :
    safe_name "a/b.py" ≠ safe_name "c/d.py" :=
  safe_name_inj_of_no_delim "a/b.py" "c/d.py" (by decide) (by decide) (by decide)

/-- C8: when the persisted index document exists but is malformed (decode
gives no value), the run does not fail: it starts from an empty index whose
`project_root` is the working directory and whose `graph_nodes` is empty. -/
theorem load_master_index_corrupt (cwd : String) :
    load_master_index cwd true none = { project_root := cwd, graph_nodes := [] } := by
  rfl

/-! ## Theorems for claim C5 (graph loader) -/

/-- Dict assignment with a fresh key is an append. -/
theorem dictInsert_of_not_mem : ∀ (l : List (String × FileNode)) (k : String)
    (v : FileNode), k ∉ l.map Prod.fst → dictInsert l k v = l ++ [(k, v)] := by
  intro l
  induction l with
  | nil => intro k v _; rfl
  | cons kv rest ih =>
    intro k v h
    obtain ⟨k0, v0⟩ := kv
    simp only [List.map_cons, List.mem_cons] at h
    push_neg at h
    simp [dictInsert, Ne.symm h.1, ih k v h.2]

/-- Unfolding of the loader fold when all keys in sight are distinct:
every present document appends its node. -/
theorem load_all_maps_go (fsRead : String → Option FileNode) :
    ∀ (entries : List IndexEntry) (acc : List (String × FileNode)),
      (acc.map Prod.fst ++ entries.map (fun e => e.file)).Nodup →
      entries.foldl (fun nodes e =>
          match fsRead e.map_ref with
          | some node => dictInsert nodes e.file node
          | none => nodes) acc
        = acc ++ entries.filterMap
            (fun e => (fsRead e.map_ref).map (fun v => (e.file, v))) := by
  intro entries
  induction entries with
  | nil => intro acc _; simp
  | cons e rest ih =>
    intro acc h
    simp only [List.map_cons] at h
    have hfresh : e.file ∉ acc.map Prod.fst := by
      have hd := (List.nodup_append.mp h).2.2
      intro hmem
      exact hd hmem (List.mem_cons_self e.file _)
    cases hfs : fsRead e.map_ref with
    | none =>
      have hnd : (acc.map Prod.fst ++ rest.map (fun e => e.file)).Nodup := by
        refine List.Nodup.sublist ?_ h
        exact (List.sublist_cons_self e.file _).append_left _
      simp only [List.foldl_cons, hfs]
      simp [List.filterMap_cons, hfs, ih acc hnd]
    | some v =>
      have hnd : ((acc ++ [(e.file, v)]).map Prod.fst
          ++ rest.map (fun e => e.file)).Nodup := by
        simpa [List.append_assoc] using h
      simp only [List.foldl_cons, hfs, dictInsert_of_not_mem acc e.file v hfresh]
      simp [List.filterMap_cons, hfs, ih _ hnd, List.append_assoc]

/-- Present-document count plus missing-document count is the entry count. -/
theorem loaded_count_aux (fsRead : String → Option FileNode) :
    ∀ entries : List IndexEntry,
      (entries.filterMap
          (fun e => (fsRead e.map_ref).map (fun v => (e.file, v)))).length
        + (entries.filter (fun e => (fsRead e.map_ref).isNone)).length
        = entries.length := by
  intro entries
  induction entries with
  | nil => rfl
  | cons e rest ih =>
    cases hfs : fsRead e.map_ref <;>
      simp [List.filterMap_cons, List.filter_cons, hfs] <;> omega

/-- C5: over an index whose `N` entries have pairwise-distinct `file` values
of which `M` reference a missing document, the loaded graph has exactly
`N - M` keys, and its key set is a subset of the index's file set; the
loader is total, so no error is raised for the missing documents. -/
theorem load_all_maps_spec (fsRead : String → Option FileNode)
    (entries : List IndexEntry)
    (h : (entries.map (fun e => e.file)).Nodup) :
    (load_all_maps fsRead entries).length
        = entries.length
          - (entries.filter (fun e => (fsRead e.map_ref).isNone)).length
      ∧ ∀ k ∈ (load_all_maps fsRead entries).map Prod.fst,
          k ∈ entries.map (fun e => e.file) := by
  have hload : load_all_maps fsRead entries
      = entries.filterMap (fun e => (fsRead e.map_ref).map (fun v => (e.file, v))) := by
    simpa using load_all_maps_go fsRead entries [] (by simpa using h)
  constructor
  · have := loaded_count_aux fsRead entries
    rw [hload]
    omega
  · intro k hk
    rw [hload] at hk
    simp only [List.mem_map, List.mem_filterMap, Option.map_eq_some'] at hk
    obtain ⟨⟨k', v⟩, ⟨e, he, ⟨w, _, hw⟩⟩, hfst⟩ := hk
    cases hw
    exact List.mem_map.mpr ⟨e, he, by simpa using hfst⟩

/-- witness for C5 on a two-entry index with one missing document. -/
theorem load_all_maps_witness :
    (load_all_maps
        (fun r => if r = "out/a.json" then
            some { file_name := none, file_path := none, functions := [],
                   classes := [], dependencies := [], summary := some "sa" }
          else none)
        [{ file := "a.py", map_ref := "out/a.json", summary := "sa" },
         { file := "b.py", map_ref := "out/b.json", summary := "sb" }]).length
      = 2 - 1 := by
  have h := load_all_maps_spec
    (fun r => if r = "out/a.json" then
        some { file_name := none, file_path := none, functions := [],
               classes := [], dependencies := [], summary := some "sa" }
      else none)
    [{ file := "a.py", map_ref := "out/a.json", summary := "sa" },
     { file := "b.py", map_ref := "out/b.json", summary := "sb" }]
    (by decide)
  simpa using h.1

/-! ## Theorems for claim C6 (impact query) -/

/-- C6: `find_dependents` reports exactly the pairs `(file, dependency.type)`
for a recorded dependency whose `target` contains the name, and
`(file, "function call in " ++ function.name)` for a recorded function with
a call containing the name; the report is de-duplicated as a set of pairs. -/
theorem find_dependents_spec (nodes : List (String × FileNode))
    (target_name : String) (x : String × String) :
    (find_dependents nodes target_name).Nodup
      ∧ (x ∈ find_dependents nodes target_name ↔
          ∃ fd ∈ nodes,
            (∃ dep ∈ fd.2.dependencies,
              strContains dep.target target_name = true ∧ x = (fd.1, dep.type))
            ∨ (∃ fn ∈ fd.2.functions,
              (∃ c ∈ fn.calls, strContains c target_name = true)
                ∧ x = (fd.1, "function call in " ++ fn.name))) := by
  constructor
  · exact List.nodup_dedup _
  · simp only [find_dependents, List.mem_dedup, List.mem_flatMap, impacted_of,
      List.mem_append, List.mem_filterMap, Option.ite_none_right_eq_some,
      Option.some.injEq, List.any_eq_true]
    constructor
    · rintro ⟨fd, hfd, ⟨dep, hdep, hc, hx⟩ | ⟨fn, hfn, hc, hx⟩⟩
      · exact ⟨fd, hfd, Or.inl ⟨dep, hdep, hc, hx.symm⟩⟩
      · exact ⟨fd, hfd, Or.inr ⟨fn, hfn, hc, hx.symm⟩⟩
    · rintro ⟨fd, hfd, ⟨dep, hdep, hc, hx⟩ | ⟨fn, hfn, hc, hx⟩⟩
      · exact ⟨fd, hfd, Or.inl ⟨dep, hdep, hc, hx.symm⟩⟩
      · exact ⟨fd, hfd, Or.inr ⟨fn, hfn, hc, hx.symm⟩⟩

/-- A loaded file record with one dependency, used in the C6 witness. -/
def nodeDep : FileNode :=
  { file_name := none, file_path := none, functions := [], classes := [],
    dependencies := [{ source := "A.py", target := "parse_config_v2", type := "import" }],
    summary := some "cfg" }

/-- witness for C6: a dependency on `parse_config_v2` is reported for the
query `parse_config` (substring tolerance) with the dependency's type. -/
theorem find_dependents_witness :
    ("A.py", "import") ∈ find_dependents [("A.py", nodeDep)] "parse_config" := by
  refine (find_dependents_spec [("A.py", nodeDep)] "parse_config"
    ("A.py", "import")).2.mpr ?_
  refine ⟨("A.py", nodeDep), by simp, Or.inl ?_⟩
  refine ⟨{ source := "A.py", target := "parse_config_v2", type := "import" }, ?_, ?_, rfl⟩
  · simp [nodeDep]
  · decide

/-! ## Theorems for claim C2 (summary query) -/

/-- A loaded file record used in the C2 counterexample. -/
def nodeA : FileNode :=
  { file_name := none, file_path := none,
    functions := [{ name := "fa", signature := "fa()", docstring := none,
                    calls := [], logic_summary := "la" }],
    classes := [], dependencies := [], summary := some "sum a" }

/-- A second loaded file record used in the C2 counterexample. -/
def nodeB : FileNode :=
  { file_name := none, file_path := none,
    functions := [{ name := "fb", signature := "fb()", docstring := none,
                    calls := [], logic_summary := "lb" }],
    classes := [], dependencies := [], summary := some "sum b" }

/-- counterexample for C2: with two loaded files both containing the query
in their paths, `show_summary` reports both files, not only the first, so
its output is not the first match's record alone. -/
theorem show_summary_not_first_only :
    show_summary [("src/a.py", nodeA), ("src/b.py", nodeB)] "src"
      ≠ [("src/a.py", "sum a", ["fa"])] := by
  decide

/-- C2 (amended): `show_summary` reports, for every loaded file whose path
contains `file_query` as a substring and in stored order, that file's cached
summary (defaulting to "No summary available." when the field is absent) and
its recorded functions' names in stored order; when no loaded file matches
it reports nothing at all (and does not fail). -/
theorem show_summary_all_matches (nodes : List (String × FileNode))
    (file_query : String) :
    show_summary nodes file_query
        = (nodes.filter (fun fd => strContains fd.1 file_query)).map
            (fun fd => (fd.1, fd.2.summary.getD "No summary available.",
              fd.2.functions.map (fun f => f.name)))
      ∧ ((∀ fd ∈ nodes, ¬ strContains fd.1 file_query = true) →
          show_summary nodes file_query = []) := by
  constructor
  · exact filterMap_guard _ _ nodes
  · intro hnone
    have heq : show_summary nodes file_query
        = (nodes.filter (fun fd => strContains fd.1 file_query)).map
            (fun fd => (fd.1, fd.2.summary.getD "No summary available.",
              fd.2.functions.map (fun f => f.name))) := filterMap_guard _ _ nodes
    rw [heq]
    have : nodes.filter (fun fd => strContains fd.1 file_query) = [] := by
      simp only [List.filter_eq_nil_iff]
      exact fun fd hfd => by simpa using hnone fd hfd
    simp [this]

/-- witness for C2's amended theorem: both conjuncts at a concrete graph,
the second with its no-match hypothesis discharged. -/
theorem show_summary_all_matches_witness :
    show_summary [("src/a.py", nodeA), ("src/b.py", nodeB)] "a.py"
        = [("src/a.py", "sum a", ["fa"])]
      ∧ show_summary [("src/a.py", nodeA), ("src/b.py", nodeB)] "zzz" = [] := by
  constructor
  · rw [(show_summary_all_matches [("src/a.py", nodeA), ("src/b.py", nodeB)] "a.py").1]
    decide
  · exact (show_summary_all_matches [("src/a.py", nodeA), ("src/b.py", nodeB)] "zzz").2
      (by decide)

/-! ## Theorems for claims C4 and C9 (retrieval scorer) -/

/-- The code's overlap score over the distinct query words is the spec's
distinct-word count. -/
theorem spec_score_eq_py (query : String) (node : IndexEntry) :
    spec_score query node = py_score ((pyWords (pyLower query)).dedup) node := by
  simp [spec_score, py_score, List.countP_eq_length_filter]

/-- Stable descending insertion permutes the inserted element into the
list. -/
theorem insertDescBy_perm {α : Type} (key : α → Nat) (x : α) :
    ∀ l : List α, (insertDescBy key x l).Perm (x :: l) := by
  intro l
  induction l with
  | nil => simp [insertDescBy]
  | cons y ys ih =>
    by_cases h : key x < key y
    · simp only [insertDescBy, if_pos h]
      exact (ih.cons y).trans (List.Perm.swap x y ys)
    · simp [insertDescBy, h]

/-- The stable descending sort is a permutation of its input (so it models
an in-place `list.sort`). -/
theorem sortDescBy_perm {α : Type} (key : α → Nat) :
    ∀ l : List α, (sortDescBy key l).Perm l := by
  intro l
  induction l with
  | nil => simp [sortDescBy]
  | cons x xs ih => exact (insertDescBy_perm key x _).trans (ih.cons x)

/-- Stable descending insertion preserves weak descending order by key. -/
theorem insertDescBy_sorted {α : Type} (key : α → Nat) (x : α) :
    ∀ l : List α, l.Pairwise (fun a b => key b ≤ key a) →
      (insertDescBy key x l).Pairwise (fun a b => key b ≤ key a) := by
  intro l
  induction l with
  | nil => intro _; simp [insertDescBy]
  | cons y ys ih =>
    intro h
    rw [List.pairwise_cons] at h
    by_cases hlt : key x < key y
    · simp only [insertDescBy, if_pos hlt, List.pairwise_cons]
      refine ⟨?_, ih h.2⟩
      intro z hz
      rcases List.mem_cons.mp ((insertDescBy_perm key x ys).mem_iff.mp hz) with hz1 | hz1
      · exact hz1 ▸ Nat.le_of_lt hlt
      · exact h.1 z hz1
    · simp only [insertDescBy, if_neg hlt, List.pairwise_cons]
      have hyx : key y ≤ key x := Nat.le_of_not_lt hlt
      refine ⟨?_, h.1, h.2⟩
      intro z hz
      rcases List.mem_cons.mp hz with hz | hz
      · exact hz ▸ hyx
      · exact (h.1 z hz).trans hyx

/-- The stable descending sort leaves the keys weakly descending. -/
theorem sortDescBy_sorted {α : Type} (key : α → Nat) :
    ∀ l : List α, (sortDescBy key l).Pairwise (fun a b => key b ≤ key a) := by
  intro l
  induction l with
  | nil => simp [sortDescBy]
  | cons x xs ih => exact insertDescBy_sorted key x _ ih

/-- Keeping the positive scores of a scoring function, with their
`map_ref`s, is filtering then mapping. -/
theorem filterMap_pos_scores (g : IndexEntry → Nat) : ∀ gn : List IndexEntry,
    gn.filterMap (fun node =>
        if g node > 0 then some (g node, node.map_ref) else none)
      = (gn.filter (fun n => 0 < g n)).map (fun n => (g n, n.map_ref)) := by
  intro gn
  induction gn with
  | nil => rfl
  | cons a as ih =>
    by_cases h : 0 < g a <;>
      simp [List.filterMap_cons, List.filter_cons, h, ih]

/-- The positive-score pair list built by the retrieval loop is the filtered
entry list paired with its spec scores. -/
theorem scores_eq (query : String) (gn : List IndexEntry) :
    gn.filterMap (fun node =>
        if py_score ((pyWords (pyLower query)).dedup) node > 0 then
          some (py_score ((pyWords (pyLower query)).dedup) node, node.map_ref)
        else none)
      = (gn.filter (fun n => 0 < spec_score query n)).map
          (fun n => (spec_score query n, n.map_ref)) := by
  rw [filterMap_pos_scores (py_score ((pyWords (pyLower query)).dedup)) gn]
  simp only [← spec_score_eq_py]

/-- Mapping commutes with stable descending insertion when the key factors
through the map. -/
theorem insertDescBy_map {α β : Type} (key : β → Nat) (f : α → β) (x : α) :
    ∀ l : List α,
      insertDescBy key (f x) (l.map f)
        = (insertDescBy (fun a => key (f a)) x l).map f := by
  intro l
  induction l with
  | nil => rfl
  | cons y ys ih =>
    by_cases h : key (f x) < key (f y) <;> simp [insertDescBy, h, ih]

/-- Mapping commutes with the stable descending sort when the key factors
through the map. -/
theorem sortDescBy_map {α β : Type} (key : β → Nat) (f : α → β) :
    ∀ l : List α,
      sortDescBy key (l.map f) = (sortDescBy (fun a => key (f a)) l).map f := by
  intro l
  induction l with
  | nil => rfl
  | cons x xs ih => simp [sortDescBy, ih, insertDescBy_map]

/-- C4: `retrieve_context` realizes the spec's scoring pipeline — distinct
query-word overlap scores, zero scores excluded, stable descending sort with
ties in index order, top-`top_k` kept, readable documents joined — and it
returns the empty string when every entry scores zero or when none of the
selected documents is readable. -/
theorem retrieve_context_spec (fsRead : String → Option String)
    (graph_nodes : List IndexEntry) (query : String) (top_k : Nat) :
    retrieve_context fsRead graph_nodes query top_k
        = spec_retrieve fsRead graph_nodes query top_k
      ∧ ((∀ n ∈ graph_nodes, spec_score query n = 0) →
          retrieve_context fsRead graph_nodes query top_k = "")
      ∧ ((∀ r ∈ (spec_selection query top_k graph_nodes).map (fun n => n.map_ref),
            fsRead r = none) →
          retrieve_context fsRead graph_nodes query top_k = "") := by
  have hmain : retrieve_context fsRead graph_nodes query top_k
      = spec_retrieve fsRead graph_nodes query top_k := by
    simp only [retrieve_context, spec_retrieve, spec_selection]
    rw [scores_eq query graph_nodes, sortDescBy_map, ← List.map_take, List.map_map]
    rfl
  refine ⟨hmain, ?_, ?_⟩
  · intro h0
    have hfilter : graph_nodes.filter (fun n => 0 < spec_score query n) = [] :=
      List.filter_eq_nil_iff.mpr (fun a ha => by simp [h0 a ha])
    rw [hmain]
    simp [spec_retrieve, spec_selection, hfilter, sortDescBy]
    rfl
  · intro hnone
    rw [hmain]
    simp only [spec_retrieve]
    rw [List.filterMap_eq_nil_iff.mpr hnone]
    rfl

/-- An index entry used in concrete retrieval witnesses. -/
def entryA : IndexEntry :=
  { file := "a.py", map_ref := "out/a.json", summary := "handles auth" }

/-- A second index entry used in concrete retrieval witnesses. -/
def entryB : IndexEntry :=
  { file := "b.py", map_ref := "out/b.json", summary := "handles billing" }

/-- witness for C4: the zero-score and no-readable-document hypotheses
discharged on a concrete two-entry index. -/
theorem retrieve_context_spec_witness :
    retrieve_context (fun _ => none) [entryA, entryB] "zzz qqq" 1 = ""
      ∧ retrieve_context (fun _ => none) [entryA, entryB] "auth" 1 = "" := by
  constructor
  · exact (retrieve_context_spec (fun _ => none) [entryA, entryB] "zzz qqq" 1).2.1
      (by decide)
  · exact (retrieve_context_spec (fun _ => none) [entryA, entryB] "auth" 1).2.2
      (fun r _ => rfl)

/-- C9: a query with no words (empty or whitespace-only, so that Python's
`split()` yields nothing) makes every entry score zero, and
`retrieve_context` returns the empty string. -/
theorem retrieve_context_empty_query (fsRead : String → Option String)
    (graph_nodes : List IndexEntry) (query : String) (top_k : Nat)
    (h : pyWords (pyLower query) = []) :
    retrieve_context fsRead graph_nodes query top_k = "" := by
  have hnil : List.filterMap
      (fun node : IndexEntry => (none : Option (Nat × String))) graph_nodes = [] :=
    List.filterMap_eq_nil_iff.mpr (fun a _ => rfl)
  simp only [retrieve_context, h, List.dedup_nil]
  simp [py_score, hnil, sortDescBy]
  rfl

/-- witness for C9 at a whitespace-only query over a nonempty index with
readable documents. -/
theorem retrieve_context_empty_query_witness :
    retrieve_context (fun _ => some "doc") [entryA] " \t " 3 = "" :=
  retrieve_context_empty_query (fun _ => some "doc") [entryA] " \t " 3 (by decide)

/-! ## Theorems for claims C1 and C7 (master-index upsert) -/

/-- The `file` keys after an upsert: unchanged when the file already has an
entry, the new file appended at the end otherwise. -/
theorem upsert_node_keys : ∀ (idx : List IndexEntry) (nd : IndexEntry),
    (upsert_node idx nd).map (fun e => e.file)
      = if nd.file ∈ idx.map (fun e => e.file) then idx.map (fun e => e.file)
        else idx.map (fun e => e.file) ++ [nd.file] := by
  intro idx
  induction idx with
  | nil => intro nd; simp [upsert_node]
  | cons e es ih =>
    intro nd
    by_cases h : e.file = nd.file
    · simp [upsert_node, h]
    · by_cases hm : nd.file ∈ es.map (fun e => e.file) <;>
        simp [upsert_node, h, Ne.symm h, hm, ih]

/-- Upsert preserves distinctness of the `file` keys. -/
theorem upsert_node_nodup (idx : List IndexEntry) (nd : IndexEntry)
    (h : (idx.map (fun e => e.file)).Nodup) :
    ((upsert_node idx nd).map (fun e => e.file)).Nodup := by
  rw [upsert_node_keys]
  by_cases hm : nd.file ∈ idx.map (fun e => e.file) <;>
    simp [hm, List.nodup_append, h]

/-- Distinctness of the `file` keys is preserved by a whole mapper run. -/
theorem run_mapper_nodup (d : String) : ∀ (steps : List (String × AnalyzeOutcome))
    (idx : List IndexEntry), (idx.map (fun e => e.file)).Nodup →
    ((run_mapper d steps idx).map (fun e => e.file)).Nodup := by
  intro steps
  induction steps with
  | nil => intro idx h; exact h
  | cons s rest ih =>
    intro idx h
    obtain ⟨f, o⟩ := s
    cases o with
    | staticFail => exact ih idx h
    | aiFail => exact ih idx h
    | ok summary => exact ih _ (upsert_node_nodup idx _ h)

/-- The entry count after a run is the number of distinct files among the
initial keys and the successfully analyzed files. -/
theorem run_mapper_length (d : String) : ∀ (steps : List (String × AnalyzeOutcome))
    (idx : List IndexEntry), (idx.map (fun e => e.file)).Nodup →
    (run_mapper d steps idx).length
      = ((idx.map (fun e => e.file)) ++ success_files steps).dedup.length := by
  intro steps
  induction steps with
  | nil =>
    intro idx h
    simp only [run_mapper, List.foldl_nil, success_files, List.filterMap_nil,
      List.append_nil]
    rw [List.dedup_eq_self.mpr h, List.length_map]
  | cons s rest ih =>
    intro idx h
    obtain ⟨f, o⟩ := s
    cases o with
    | staticFail => simpa [run_mapper, success_files, List.filterMap_cons] using ih idx h
    | aiFail => simpa [run_mapper, success_files, List.filterMap_cons] using ih idx h
    | ok summary =>
      have hstep : run_mapper d ((f, AnalyzeOutcome.ok summary) :: rest) idx
          = run_mapper d rest
              (upsert_node idx
                { file := f, map_ref := d ++ "/" ++ safe_name f, summary := summary }) := by
        simp [run_mapper, process_single_file]
      have hsf : success_files ((f, AnalyzeOutcome.ok summary) :: rest)
          = f :: success_files rest := by
        simp [success_files, List.filterMap_cons]
      rw [hstep, hsf, ih _ (upsert_node_nodup idx _ h)]
      rw [← List.card_toFinset, ← List.card_toFinset]
      congr 1
      rw [List.toFinset_append, List.toFinset_append, upsert_node_keys]
      by_cases hm : f ∈ idx.map (fun e => e.file)
      · simp only [hm, if_pos, List.toFinset_cons, Finset.union_insert]
        rw [Finset.insert_eq_self.mpr (Finset.mem_union_left _ (List.mem_toFinset.mpr hm))]
      · simp only [hm, if_neg, not_false_iff, List.toFinset_append, List.toFinset_cons,
          List.toFinset_nil, Finset.union_insert]
        simp [Finset.insert_union, Finset.union_assoc]

/-- C1: starting from an index with at most one entry per `file`, any
sequence of `process_single_file` calls keeps the keys distinct, and the
final entry count is the number of distinct files among the initial index
files and the successfully analyzed files, however often files repeat. -/
theorem mapper_upsert_invariant (d : String) (steps : List (String × AnalyzeOutcome))
    (idx : List IndexEntry) (h : (idx.map (fun e => e.file)).Nodup) :
    ((run_mapper d steps idx).map (fun e => e.file)).Nodup
      ∧ (run_mapper d steps idx).length
          = ((idx.map (fun e => e.file)) ++ success_files steps).dedup.length :=
  ⟨run_mapper_nodup d steps idx h, run_mapper_length d steps idx h⟩

/-- witness for C1: a run from the empty index re-processing `a.py` twice
with one failed file in between ends with a single entry. -/
theorem mapper_upsert_invariant_witness :
    ((run_mapper "out" [("a.py", AnalyzeOutcome.ok "s1"), ("b.py", AnalyzeOutcome.staticFail),
        ("a.py", AnalyzeOutcome.ok "s2")] []).map (fun e => e.file)).Nodup
      ∧ (run_mapper "out" [("a.py", AnalyzeOutcome.ok "s1"), ("b.py", AnalyzeOutcome.staticFail),
          ("a.py", AnalyzeOutcome.ok "s2")] []).length
        = ((([] : List IndexEntry).map (fun e => e.file))
            ++ success_files [("a.py", AnalyzeOutcome.ok "s1"), ("b.py", AnalyzeOutcome.staticFail),
                ("a.py", AnalyzeOutcome.ok "s2")]).dedup.length :=
  mapper_upsert_invariant "out"
    [("a.py", AnalyzeOutcome.ok "s1"), ("b.py", AnalyzeOutcome.staticFail),
      ("a.py", AnalyzeOutcome.ok "s2")] [] (by simp)

/-- When the file already has an entry, the upsert rewrites exactly the
first entry carrying that file. -/
theorem upsert_node_mem_eq_set : ∀ (idx : List IndexEntry) (nd : IndexEntry),
    nd.file ∈ idx.map (fun e => e.file) →
    upsert_node idx nd = idx.set (idx.findIdx (fun e => e.file == nd.file)) nd := by
  intro idx
  induction idx with
  | nil => intro nd h; simp at h
  | cons e es ih =>
    intro nd h
    by_cases heq : e.file = nd.file
    · simp [upsert_node, heq, List.findIdx_cons]
    · have hm : nd.file ∈ es.map (fun e => e.file) := by
        simp only [List.map_cons, List.mem_cons] at h
        exact h.resolve_left (fun hc => heq hc.symm)
      have hb : (e.file == nd.file) = false := beq_eq_false_iff_ne.mpr heq
      simp [upsert_node, heq, hb, List.findIdx_cons, ih nd hm]

/-- C7: reprocessing a file that already has an index entry (successful
analysis) rewrites only that entry, at its existing position
`i = findIdx`: the result is a point update, the entry count is unchanged,
the entry at `i` carries the same `file` with the new `map_ref` and
`summary`, the old entry at `i` had that same `file`, and every other
position is untouched. -/
theorem process_existing_update_in_place (d f s : String)
    (idx : List IndexEntry) (i : Nat)
    (hmem : f ∈ idx.map (fun e => e.file))
    (hi : i = idx.findIdx (fun e => e.file == f)) :
    process_single_file d f (AnalyzeOutcome.ok s) idx
        = idx.set i { file := f, map_ref := d ++ "/" ++ safe_name f, summary := s }
      ∧ (process_single_file d f (AnalyzeOutcome.ok s) idx).length = idx.length
      ∧ (process_single_file d f (AnalyzeOutcome.ok s) idx)[i]?
          = some { file := f, map_ref := d ++ "/" ++ safe_name f, summary := s }
      ∧ (idx[i]?).map (fun e => e.file) = some f
      ∧ ∀ j, j ≠ i → (process_single_file d f (AnalyzeOutcome.ok s) idx)[j]? = idx[j]? := by
  have hset : process_single_file d f (AnalyzeOutcome.ok s) idx
      = idx.set i { file := f, map_ref := d ++ "/" ++ safe_name f, summary := s } := by
    rw [hi]
    exact upsert_node_mem_eq_set idx _ hmem
  have hex : ∃ e ∈ idx, (e.file == f) = true := by
    obtain ⟨e, he, hef⟩ := List.mem_map.mp hmem
    exact ⟨e, he, beq_iff_eq.mpr hef⟩
  have hlt : i < idx.length := hi ▸ List.findIdx_lt_length.mpr hex
  refine ⟨hset, ?_, ?_, ?_, ?_⟩
  · rw [hset, List.length_set]
  · rw [hset]
    exact List.getElem?_set_self hlt
  · have hp := @List.findIdx_getElem _ (fun e => e.file == f) idx (hi ▸ hlt)
    have hfile : (idx.get ⟨i, hlt⟩).file = f := by
      subst hi
      rw [List.get_eq_getElem]
      exact beq_iff_eq.mp hp
    have hgetd : idx[i]? = some (idx.get ⟨i, hlt⟩) := by
      rw [List.getElem?_eq_getElem hlt, List.get_eq_getElem]
    rw [hgetd]
    rw [List.get_eq_getElem] at hfile
    simp [hfile]
  · intro j hj
    rw [hset]
    exact List.getElem?_set_ne (fun hc => hj hc.symm)

/-- witness for C7: re-analyzing `a.py` in a concrete two-entry index
updates exactly the first position. -/
theorem process_existing_update_witness :
    process_single_file "out" "a.py" (AnalyzeOutcome.ok "s2")
        [{ file := "a.py", map_ref := "out/a.py.json", summary := "s1" },
         { file := "b.py", map_ref := "out/b.py.json", summary := "sb" }]
      = [{ file := "a.py", map_ref := "out/a.py.json", summary := "s2" },
         { file := "b.py", map_ref := "out/b.py.json", summary := "sb" }] := by
  have h := process_existing_update_in_place "out" "a.py" "s2"
    [{ file := "a.py", map_ref := "out/a.py.json", summary := "s1" },
     { file := "b.py", map_ref := "out/b.py.json", summary := "sb" }] 0
    (by decide) (by decide)
  rw [h.1]
  decide

/-! ## Theorems for claim C10 (queries are read-only) -/

/-- C10: the query operations `find_dependents` and `show_summary` leave the
graph object's state (`index` and loaded `nodes`) exactly as it was. -/
theorem queries_read_only (g : SiliceGraph) (target_name file_query : String) :
    (find_dependents_run g target_name).2 = g
      ∧ (show_summary_run g file_query).2 = g :=
  ⟨rfl, rfl⟩

end Silice
